import Mathlib

/-!
Verification of the starcoin transaction-pipeline wire codec, status
classifier, payload builder, transaction assembler and dry-run gate.

The definitions are a shallow embedding of the Rust sources:
  * `src/rpc/api/src/types.rs` — `StrView` codecs, `ByteCodeOrScriptFunction`,
    `ArgumentsView`, `TransactionVMStatus`;
  * `src/cmd/starcoin/src/dev/execute_cmd.rs` — `ExecuteCommand::run`.

Strings are modelled as `List Char` (the contents of a Rust `&str`), bytes as
`Fin 256`, and machine integers as `Nat`/`Int` restricted by explicit bounds.
Fallible operations return `Option`/`Except`.
-/

namespace StarcoinSpec

/-- A byte, the element type of Rust `Vec<u8>`. -/
abbrev Byte := Fin 256

/-- `ByteCode` from `types.rs`: `pub type ByteCode = Vec<u8>;`. -/
abbrev ByteCode := List Byte

/-! ## Digit characters

`digitChar n` is the character the Rust formatting machinery produces for the
digit value `n` (`0`-`9` then lowercase `a`-`f`), as used both by decimal
`Display` of integers and by `hex::encode` (lowercase hex). -/

/-- The character for digit value `n < 16`: `'0'..'9'` then `'a'..'f'`. -/
def digitChar (n : Nat) : Char :=
  if n < 10 then Char.ofNat (48 + n) else Char.ofNat (87 + n)

/-- The uppercase hex character for digit value `n < 16`: `'0'..'9'`, `'A'..'F'`.
Used only to state case-insensitivity of hex decoding. -/
def upperDigitChar (n : Nat) : Char :=
  if n < 10 then Char.ofNat (48 + n) else Char.ofNat (55 + n)

/-- Decimal digit value of a character, as accepted by Rust's integer
`FromStr` (only `'0'..'9'`). -/
def decDigitVal (c : Char) : Option Nat :=
  if 48 ≤ c.toNat ∧ c.toNat ≤ 57 then some (c.toNat - 48) else none

/-- Hex digit value of a character, as accepted by `hex::decode`
(case-insensitive). -/
def hexDigitVal (c : Char) : Option Nat :=
  if 48 ≤ c.toNat ∧ c.toNat ≤ 57 then some (c.toNat - 48)
  else if 97 ≤ c.toNat ∧ c.toNat ≤ 102 then some (c.toNat - 87)
  else if 65 ≤ c.toNat ∧ c.toNat ≤ 70 then some (c.toNat - 55)
  else none

/-! ## Hex encoding and decoding of byte buffers

`hex::encode` produces two lowercase hex characters per byte; `hex::decode`
consumes characters two at a time, failing on an odd-length input or on any
non-hex character.  `StrView<Vec<u8>>`'s `Display` writes `"0x"` followed by
`hex::encode`; its `FromStr` strips an optional `"0x"` prefix and hex-decodes
(`types.rs` lines 1134-1145). -/

/-- `hex::encode` with a configurable digit alphabet (the crate itself is
lowercase; the uppercase alphabet is used only to state case-insensitivity). -/
def hexEncodeWith (g : Nat → Char) : ByteCode → List Char
  | [] => []
  | b :: rest => g (b.val / 16) :: g (b.val % 16) :: hexEncodeWith g rest

/-- `hex::encode`: lowercase hex, two characters per byte. -/
def hexEncodeChars (bs : ByteCode) : List Char := hexEncodeWith digitChar bs

/-- `hex::decode`: two characters per byte, case-insensitive; fails on
odd-length input and on non-hex characters. -/
def hexDecodeList : List Char → Option ByteCode
  | [] => some []
  | [_] => none
  | a :: b :: rest =>
    match hexDigitVal a, hexDigitVal b, hexDecodeList rest with
    | some hi, some lo, some tail => some (⟨(hi * 16 + lo) % 256, by omega⟩ :: tail)
    | _, _, _ => none

/-- `s.strip_prefix("0x").unwrap_or(s)`: drop a leading `"0x"` if present. -/
def strip0x : List Char → List Char
  | a :: b :: rest => if a = '0' ∧ b = 'x' then rest else a :: b :: rest
  | l => l

/-- `Display for StrView<Vec<u8>>` (`types.rs` 1134-1138):
`write!(f, "0x{}", hex::encode(&self.0))`. -/
def strViewBytesDisplay (bs : ByteCode) : List Char :=
  '0' :: 'x' :: hexEncodeChars bs

/-- `FromStr for StrView<Vec<u8>>` (`types.rs` 1140-1145):
`hex::decode(s.strip_prefix("0x").unwrap_or(s))`. -/
def strViewBytesFromStr (l : List Char) : Option ByteCode :=
  hexDecodeList (strip0x l)

/-! ### Basic facts about hex digits -/

theorem hexDigitVal_digitChar : ∀ d : Fin 16, hexDigitVal (digitChar d.val) = some d.val := by
  decide

theorem hexDigitVal_upperDigitChar :
    ∀ d : Fin 16, hexDigitVal (upperDigitChar d.val) = some d.val := by
  decide

theorem digitChar_ne_colon : ∀ d : Fin 16, digitChar d.val ≠ ':' := by decide

theorem digitChar_ne_x : ∀ d : Fin 16, digitChar d.val ≠ 'x' := by decide

theorem upperDigitChar_ne_x : ∀ d : Fin 16, upperDigitChar d.val ≠ 'x' := by decide

theorem digitChar_mem_lowerAlphabet :
    ∀ d : Fin 16, digitChar d.val ∈ "0123456789abcdef".data := by decide

theorem hexDigitVal_lt {c : Char} {d : Nat} (h : hexDigitVal c = some d) : d < 16 := by
  unfold hexDigitVal at h
  split at h
  · simp only [Option.some.injEq] at h; omega
  · split at h
    · simp only [Option.some.injEq] at h; omega
    · split at h
      · simp only [Option.some.injEq] at h; omega
      · simp at h

/-- Every character of a hex encoding is a digit character. -/
theorem hexEncodeWith_mem {g : Nat → Char} (hg : ∀ n, n < 16 → ∃ d : Fin 16, g n = g d.val) :
    ∀ bs c, c ∈ hexEncodeWith g bs → ∃ d : Fin 16, c = g d.val := by
  intro bs
  induction bs with
  | nil => intro c hc; simp [hexEncodeWith] at hc
  | cons b rest ih =>
    intro c hc
    simp only [hexEncodeWith, List.mem_cons] at hc
    rcases hc with h | h | h
    · subst h; exact hg _ (by omega)
    · subst h; exact hg _ (Nat.mod_lt _ (by omega))
    · exact ih c h

/-- Round trip: decoding a (lower- or uppercase) hex encoding recovers the bytes. -/
theorem hexDecode_hexEncodeWith {g : Nat → Char}
    (hg : ∀ d : Fin 16, hexDigitVal (g d.val) = some d.val) :
    ∀ bs : ByteCode, hexDecodeList (hexEncodeWith g bs) = some bs := by
  intro bs
  induction bs with
  | nil => rfl
  | cons b rest ih =>
    have hhi : hexDigitVal (g (b.val / 16)) = some (b.val / 16) := by
      have h16 : b.val / 16 < 16 := by omega
      exact hg ⟨b.val / 16, h16⟩
    have hlo : hexDigitVal (g (b.val % 16)) = some (b.val % 16) := by
      have h16 : b.val % 16 < 16 := Nat.mod_lt _ (by omega)
      exact hg ⟨b.val % 16, h16⟩
    show hexDecodeList (g (b.val / 16) :: g (b.val % 16) :: hexEncodeWith g rest) = _
    rw [hexDecodeList, hhi, hlo, ih]
    show some (⟨(b.val / 16 * 16 + b.val % 16) % 256, by omega⟩ :: rest) = some (b :: rest)
    have hb : (b.val / 16 * 16 + b.val % 16) % 256 = b.val := by
      have := b.isLt
      omega
    simp only [Option.some.injEq, List.cons.injEq]
    exact ⟨Fin.ext hb, trivial⟩

theorem hexDecode_hexEncode (bs : ByteCode) : hexDecodeList (hexEncodeChars bs) = some bs :=
  hexDecode_hexEncodeWith hexDigitVal_digitChar bs

/-- An induction principle matching the two-at-a-time recursion of
`hexDecodeList`. -/
theorem twoStepInduction {motive : List Char → Prop} (h0 : motive [])
    (h1 : ∀ a, motive [a]) (h2 : ∀ a b rest, motive rest → motive (a :: b :: rest)) :
    ∀ l, motive l
  | [] => h0
  | [a] => h1 a
  | a :: b :: rest => h2 a b rest (twoStepInduction h0 h1 h2 rest)

/-- `hex::decode` fails exactly on odd-length or non-hex-character input. -/
theorem hexDecodeList_eq_none_iff :
    ∀ l, hexDecodeList l = none ↔ (l.length % 2 = 1 ∨ ∃ c ∈ l, hexDigitVal c = none) := by
  apply twoStepInduction
  · simp [hexDecodeList]
  · intro a; simp [hexDecodeList]
  · intro a b rest ih
    constructor
    · intro h
      rw [hexDecodeList] at h
      rcases ha : hexDigitVal a with _ | va
      · exact Or.inr ⟨a, by simp, ha⟩
      rcases hb : hexDigitVal b with _ | vb
      · exact Or.inr ⟨b, by simp, hb⟩
      rcases hr : hexDecodeList rest with _ | tail
      · rcases (ih.mp hr) with hodd | ⟨c, hc, hcv⟩
        · left; simp only [List.length_cons]; omega
        · exact Or.inr ⟨c, by simp [hc], hcv⟩
      · rw [ha, hb, hr] at h; simp at h
    · intro h
      rw [hexDecodeList]
      rcases h with hodd | ⟨c, hc, hcv⟩
      · have : rest.length % 2 = 1 := by simp [List.length_cons] at hodd; omega
        have hr : hexDecodeList rest = none := ih.mpr (Or.inl this)
        rw [hr]
        rcases hexDigitVal a with _ | va <;> rcases hexDigitVal b with _ | vb <;> rfl
      · simp only [List.mem_cons] at hc
        rcases hc with rfl | rfl | hc
        · rw [hcv]
        · rw [hcv]; rcases hexDigitVal a with _ | va <;> rfl
        · have hr : hexDecodeList rest = none := ih.mpr (Or.inr ⟨c, hc, hcv⟩)
          rw [hr]
          rcases hexDigitVal a with _ | va <;> rcases hexDigitVal b with _ | vb <;> rfl

/-! ## Positional rendering and parsing of unsigned integers

Rust's `Display` for the integer types writes base-10 digits; `FromStr`
accepts an optional sign, then decimal digits, and fails on empty input,
non-digit characters and overflow.  `toBaseAux` renders in an arbitrary base.
The fuel argument only bounds the digit count: every value embedded here is at
most 128 bits (≤ 39 decimal / 32 hex digits), so fuel 40 never runs out. -/

/-- Big-endian base-`base` digits of `n` (at most `fuel` digits). -/
def toBaseAux (base : Nat) : Nat → Nat → List Char
  | 0, _ => []
  | fuel + 1, n =>
    if n < base then [digitChar n]
    else toBaseAux base fuel (n / base) ++ [digitChar (n % base)]

/-- Decimal rendering of an (≤ 128-bit) unsigned integer, as Rust `Display`. -/
def natToDecChars (n : Nat) : List Char := toBaseAux 10 40 n

/-- Lowercase hex rendering of an (≤ 128-bit) value, with leading zeros
trimmed. -/
def natToHexChars (n : Nat) : List Char := toBaseAux 16 40 n

/-- Fold big-endian digits of `l` onto `acc`, failing at the first non-digit. -/
def parseDigitsAux (digVal : Char → Option Nat) (base : Nat) : Nat → List Char → Option Nat
  | acc, [] => some acc
  | acc, c :: rest =>
    match digVal c with
    | some d => parseDigitsAux digVal base (acc * base + d) rest
    | none => none

/-- Parse a nonempty run of decimal digits. -/
def parseDecNat (l : List Char) : Option Nat :=
  if l.isEmpty then none else parseDigitsAux decDigitVal 10 0 l

/-- Rust unsigned `FromStr` before the width check: optional `'+'`, then
nonempty decimal digits. -/
def parseUnsignedDec (l : List Char) : Option Nat :=
  match l with
  | [] => none
  | c :: rest => if c = '+' then parseDecNat rest else parseDecNat (c :: rest)

/-- Rust signed `FromStr` before the width check: optional `'-'`/`'+'` sign,
then nonempty decimal digits. -/
def parseSignedDec (l : List Char) : Option Int :=
  match l with
  | [] => none
  | c :: rest =>
    if c = '-' then (parseDecNat rest).map (fun n => -(n : Int))
    else if c = '+' then (parseDecNat rest).map (fun n => (n : Int))
    else (parseDecNat (c :: rest)).map (fun n => (n : Int))

/-- `u64::from_str`: value must fit in 64 bits. -/
def u64FromStr (l : List Char) : Option Nat :=
  (parseUnsignedDec l).bind fun n => if n < 2 ^ 64 then some n else none

/-- `u128::from_str`: value must fit in 128 bits. -/
def u128FromStr (l : List Char) : Option Nat :=
  (parseUnsignedDec l).bind fun n => if n < 2 ^ 128 then some n else none

/-- `i64::from_str`: value must fit in a signed 64-bit integer. -/
def i64FromStr (l : List Char) : Option Int :=
  (parseSignedDec l).bind fun v =>
    if -(2 ^ 63) ≤ v ∧ v < 2 ^ 63 then some v else none

/-- `i128::from_str`: value must fit in a signed 128-bit integer. -/
def i128FromStr (l : List Char) : Option Int :=
  (parseSignedDec l).bind fun v =>
    if -(2 ^ 127) ≤ v ∧ v < 2 ^ 127 then some v else none

/-- Rust `Display` for `i64`/`i128`: a `'-'` sign for negatives, then the
decimal digits of the magnitude. -/
def intToDecChars (x : Int) : List Char :=
  if x < 0 then '-' :: natToDecChars x.natAbs else natToDecChars x.natAbs

theorem decDigitVal_digitChar : ∀ d : Fin 10, decDigitVal (digitChar d.val) = some d.val := by
  decide

/-! ### Facts about `toBaseAux` -/

theorem toBaseAux_ne_nil {base : Nat} (_hb : 2 ≤ base) :
    ∀ fuel n, toBaseAux base (fuel + 1) n ≠ [] := by
  intro fuel n
  rw [toBaseAux]
  split
  · simp
  · simp

theorem toBaseAux_mem {base : Nat} (hb : 2 ≤ base) (hb16 : base ≤ 16) :
    ∀ fuel n c, c ∈ toBaseAux base fuel n → ∃ d : Fin 16, c = digitChar d.val := by
  intro fuel
  induction fuel with
  | zero => intro n c hc; simp [toBaseAux] at hc
  | succ fuel ih =>
    intro n c hc
    rw [toBaseAux] at hc
    split at hc
    · simp at hc
      exact ⟨⟨n, by omega⟩, hc⟩
    · rw [List.mem_append] at hc
      rcases hc with hc | hc
      · exact ih _ c hc
      · simp at hc
        exact ⟨⟨n % base, by have := Nat.mod_lt n (show 0 < base by omega); omega⟩, hc⟩

theorem parseDigitsAux_nil (digVal : Char → Option Nat) (base acc : Nat) :
    parseDigitsAux digVal base acc [] = some acc := rfl

theorem parseDigitsAux_cons_some {digVal : Char → Option Nat} {base : Nat} {c : Char}
    {d : Nat} (h : digVal c = some d) (acc : Nat) (rest : List Char) :
    parseDigitsAux digVal base acc (c :: rest) = parseDigitsAux digVal base (acc * base + d) rest := by
  rw [show parseDigitsAux digVal base acc (c :: rest) =
        (match digVal c with
         | some d => parseDigitsAux digVal base (acc * base + d) rest
         | none => none) from rfl, h]

theorem parseDigitsAux_cons_none {digVal : Char → Option Nat} {base : Nat} {c : Char}
    (h : digVal c = none) (acc : Nat) (rest : List Char) :
    parseDigitsAux digVal base acc (c :: rest) = none := by
  rw [show parseDigitsAux digVal base acc (c :: rest) =
        (match digVal c with
         | some d => parseDigitsAux digVal base (acc * base + d) rest
         | none => none) from rfl, h]

/-- Parsing distributes over append. -/
theorem parseDigitsAux_append (digVal : Char → Option Nat) (base : Nat) :
    ∀ l1 l2 acc, parseDigitsAux digVal base acc (l1 ++ l2) =
      (parseDigitsAux digVal base acc l1).bind fun m => parseDigitsAux digVal base m l2 := by
  intro l1
  induction l1 with
  | nil => intro l2 acc; simp [parseDigitsAux]
  | cons c rest ih =>
    intro l2 acc
    rw [List.cons_append, parseDigitsAux, parseDigitsAux]
    rcases digVal c with _ | d
    · rfl
    · exact ih l2 _

/-- Parsing the base-`base` rendering of `n` extends the accumulator by `n`. -/
theorem parseDigitsAux_toBaseAux {base : Nat} {digVal : Char → Option Nat}
    (hb : 2 ≤ base) (hd : ∀ d, d < base → digVal (digitChar d) = some d) :
    ∀ fuel n acc, n < base ^ fuel →
      parseDigitsAux digVal base acc (toBaseAux base (fuel + 1) n) =
        some (acc * base ^ (toBaseAux base (fuel + 1) n).length + n) := by
  intro fuel
  induction fuel with
  | zero =>
    intro n acc hn
    have hn0 : n = 0 := by simpa using hn
    subst hn0
    rw [toBaseAux, if_pos (by omega)]
    rw [parseDigitsAux_cons_some (hd 0 (by omega)), parseDigitsAux_nil]
    simp
  | succ fuel ih =>
    intro n acc hn
    rw [toBaseAux]
    split
    · rw [parseDigitsAux_cons_some (hd n (by omega)), parseDigitsAux_nil]
      simp [pow_succ]
    · have hge : base ≤ n := by omega
      have hdiv : n / base < base ^ fuel := by
        rw [Nat.div_lt_iff_lt_mul (by omega)]
        calc n < base ^ (fuel + 1) := hn
        _ = base ^ fuel * base := by rw [pow_succ]
      rw [parseDigitsAux_append, ih (n / base) acc hdiv, Option.some_bind]
      rw [parseDigitsAux_cons_some (hd (n % base) (Nat.mod_lt _ (by omega))), parseDigitsAux_nil]
      have hsplit : n / base * base + n % base = n := Nat.div_add_mod' n base
      simp only [Option.some.injEq, List.length_append, List.length_singleton]
      rw [pow_succ]
      calc (acc * base ^ (toBaseAux base (fuel + 1) (n / base)).length + n / base) * base
            + n % base
          = acc * (base ^ (toBaseAux base (fuel + 1) (n / base)).length * base)
            + (n / base * base + n % base) := by ring
        _ = _ := by rw [hsplit]

theorem digitChar_ne_plus : ∀ d : Fin 16, digitChar d.val ≠ '+' := by decide

theorem digitChar_ne_minus : ∀ d : Fin 16, digitChar d.val ≠ '-' := by decide

/-- The decimal rendering starts with a digit character. -/
theorem natToDecChars_head (n : Nat) :
    ∃ d : Fin 16, ∃ t, natToDecChars n = digitChar d.val :: t := by
  cases h : natToDecChars n with
  | nil => exact absurd h (toBaseAux_ne_nil (by norm_num) 39 n)
  | cons c t =>
    have hc : c ∈ natToDecChars n := by
      rw [h]; exact List.mem_cons_self c t
    obtain ⟨d, hd⟩ := toBaseAux_mem (by norm_num) (by norm_num) 40 n c hc
    refine ⟨d, t, ?_⟩
    rw [hd]

theorem parseDecNat_natToDecChars {n : Nat} (hn : n < 10 ^ 39) :
    parseDecNat (natToDecChars n) = some n := by
  have hne : natToDecChars n ≠ [] := toBaseAux_ne_nil (by norm_num) 39 n
  have hp := @parseDigitsAux_toBaseAux 10 decDigitVal (by norm_num)
      (fun d hd => decDigitVal_digitChar ⟨d, hd⟩) 39 n 0 hn
  unfold parseDecNat
  split
  · next hemp =>
    exact absurd (by simpa using hemp) hne
  · simpa using hp

theorem parseUnsignedDec_natToDecChars {n : Nat} (hn : n < 10 ^ 39) :
    parseUnsignedDec (natToDecChars n) = some n := by
  obtain ⟨d, t, h⟩ := natToDecChars_head n
  rw [h, parseUnsignedDec, if_neg (digitChar_ne_plus d), ← h]
  exact parseDecNat_natToDecChars hn

theorem parseSignedDec_intToDecChars {x : Int} (hx : x.natAbs < 10 ^ 39) :
    parseSignedDec (intToDecChars x) = some x := by
  by_cases hneg : x < 0
  · rw [intToDecChars, if_pos hneg, parseSignedDec, if_pos rfl,
      parseDecNat_natToDecChars hx]
    show some (-(x.natAbs : Int)) = some x
    congr 1
    omega
  · rw [intToDecChars, if_neg hneg]
    obtain ⟨d, t, h⟩ := natToDecChars_head x.natAbs
    rw [h, parseSignedDec, if_neg (digitChar_ne_minus d), if_neg (digitChar_ne_plus d), ← h,
      parseDecNat_natToDecChars hx]
    show some ((x.natAbs : Int)) = some x
    congr 1
    omega

/-! ## JSON values and the `StrView` integer serializers

`StrView<T>` serializes through `serializer.serialize_str(&self.to_string())`
and deserializes through `String::deserialize` followed by `from_str`
(`types.rs` 1015-1040); with `impl_str_view_for! {u64 i64 u128 i128}`
(`types.rs` 1164-1180) the rendering is plain base-10 `Display`.  A minimal
JSON value type distinguishes a string from a native numeric literal. -/

/-- A JSON value as seen by serde on the wire (only the shapes the embedded
serializers can touch). -/
inductive Json
  | str (s : List Char)
  | num (n : Int)
  | arr (elems : List Json)

/-- `Serialize for StrView<u64>`: a base-10 decimal *string*. -/
def serStrViewU64 (n : Nat) : Json := .str (natToDecChars n)

/-- `Deserialize for StrView<u64>`: expect a string, then `u64::from_str`. -/
def deserStrViewU64 : Json → Option Nat
  | .str s => u64FromStr s
  | _ => none

/-- `Serialize for StrView<u128>`. -/
def serStrViewU128 (n : Nat) : Json := .str (natToDecChars n)

/-- `Deserialize for StrView<u128>`. -/
def deserStrViewU128 : Json → Option Nat
  | .str s => u128FromStr s
  | _ => none

/-- `Serialize for StrView<i64>`. -/
def serStrViewI64 (x : Int) : Json := .str (intToDecChars x)

/-- `Deserialize for StrView<i64>`. -/
def deserStrViewI64 : Json → Option Int
  | .str s => i64FromStr s
  | _ => none

/-- `Serialize for StrView<i128>`. -/
def serStrViewI128 (x : Int) : Json := .str (intToDecChars x)

/-- `Deserialize for StrView<i128>`. -/
def deserStrViewI128 : Json → Option Int
  | .str s => i128FromStr s
  | _ => none

/-- Digit-count bound: `n < base ^ k` renders in at most `k` digits. -/
theorem toBaseAux_length {base : Nat} (hb : 2 ≤ base) :
    ∀ fuel n k, n < base ^ fuel → n < base ^ k → 1 ≤ k →
      (toBaseAux base (fuel + 1) n).length ≤ k := by
  intro fuel
  induction fuel with
  | zero =>
    intro n k hfuel hk h1
    have hn0 : n = 0 := by simpa using hfuel
    subst hn0
    rw [toBaseAux, if_pos (by omega)]
    simpa using h1
  | succ fuel ih =>
    intro n k hfuel hk h1
    rw [toBaseAux]
    split
    · simpa using h1
    · have hge : base ≤ n := by omega
      have hk2 : 2 ≤ k := by
        by_contra hlt
        have hk1 : k = 1 := by omega
        subst hk1
        simp at hk
        omega
      have hdivf : n / base < base ^ fuel := by
        rw [Nat.div_lt_iff_lt_mul (by omega)]
        calc n < base ^ (fuel + 1) := hfuel
        _ = base ^ fuel * base := by rw [pow_succ]
      have hdivk : n / base < base ^ (k - 1) := by
        rw [Nat.div_lt_iff_lt_mul (by omega)]
        calc n < base ^ k := hk
        _ = base ^ (k - 1) * base := by
              rw [← pow_succ]
              congr 1
              omega
      have := ih (n / base) (k - 1) hdivf hdivk (by omega)
      simp only [List.length_append, List.length_singleton]
      omega

/-! ## Identifiers, account addresses, module and function ids

`Identifier`, `AccountAddress`, `ModuleId` and `FunctionId` come from the
move/starcoin type crates, which are not under `src/`; their string forms are
modelled from the spec (§4.1: structured reference `address::module::member`,
address literals like `0x1`, round-tripping displays). -/

/-- Characters allowed inside a Move identifier. -/
def isIdentChar (c : Char) : Bool := c.isAlpha || c.isDigit || c = '_'

/-- Modelled from the spec: validity of a Move `Identifier`
(`Identifier::new` from the move core types, not under `src/`): a letter or
`'_'` followed by letters, digits and underscores; a lone `'_'` is invalid. -/
def isValidIdentifier (l : List Char) : Bool :=
  match l with
  | [] => false
  | c :: rest => (c.isAlpha || (c = '_' && !rest.isEmpty)) && rest.all isIdentChar

/-- A Move identifier (the character content of `Identifier`). -/
abbrev Identifier := List Char

/-- Modelled from the spec: `Identifier::new` — accepts exactly the valid
identifier strings. -/
def identifierNew (l : List Char) : Option Identifier :=
  if isValidIdentifier l then some l else none

/-- `ModuleId { address, name }`; the 16-byte account address is its numeric
value (`< 16^32`). -/
structure ModuleId where
  address : Nat
  name : Identifier
  deriving DecidableEq

/-- `FunctionId { module, function }` from the move language storage types. -/
structure FunctionId where
  module : ModuleId
  function : Identifier
  deriving DecidableEq

/-- Modelled from the spec: `AccountAddress` parsing (`"0x"` followed by at
most 32 hex digits, or a bare 32-hex-digit string), as exercised by the
`"0x1".parse::<AccountAddress>()` test in `types.rs`. -/
def parseAccountAddress (l : List Char) : Option Nat :=
  match l with
  | '0' :: 'x' :: rest =>
    if 0 < rest.length ∧ rest.length ≤ 32 then parseDigitsAux hexDigitVal 16 0 rest else none
  | l => if l.length = 32 then parseDigitsAux hexDigitVal 16 0 l else none

/-- Modelled from the spec: `Display` of an account address inside a module
id — the `0x`-prefixed short hex literal (leading zeros trimmed), so that
`"0x1::Account::create_account"` re-displays identically (§8). -/
def displayAccountAddress (a : Nat) : List Char :=
  '0' :: 'x' :: natToHexChars a

/-- `Display for StrView<ModuleId>` (`types.rs` 1069-1073): `address::name`. -/
def displayModuleId (m : ModuleId) : List Char :=
  displayAccountAddress m.address ++ ':' :: ':' :: m.name

/-- `Display for FunctionIdView` (`types.rs` 1048-1052): `module::function`. -/
def displayFunctionId (f : FunctionId) : List Char :=
  displayModuleId f.module ++ ':' :: ':' :: f.function

/-! ## Splitting on the `"::"` separator

`FromStr for StrView<ModuleId>` (`types.rs` 1075-1087) uses `s.split("::")`
(leftward, all occurrences); `FromStr for ByteCodeOrScriptFunction` and for
`FunctionIdView` use `s.rsplitn(2, "::")`, which cuts at the *last*
occurrence. -/

/-- Prepend a character to the first piece of a split result. -/
def consCell (c : Char) : List (List Char) → List (List Char)
  | h :: t => (c :: h) :: t
  | [] => [[c]]

/-- Rust `str::split("::")`: leftward, greedy, all occurrences. -/
def splitSep : List Char → List (List Char)
  | [] => [[]]
  | [c] => [[c]]
  | c :: d :: rest =>
    if c = ':' ∧ d = ':' then [] :: splitSep rest
    else consCell c (splitSep (d :: rest))

/-- Rust `str::rsplitn(2, "::")` reassembled as `(before, after)`: cut the
string at the last occurrence of `"::"`; `none` when the separator is
absent. -/
def rsplitOnce : List Char → Option (List Char × List Char)
  | [] => none
  | [_] => none
  | c :: d :: rest =>
    match rsplitOnce (d :: rest) with
    | some (pre, post) => some (c :: pre, post)
    | none => if c = ':' ∧ d = ':' then some ([], rest) else none

/-- Whether `"::"` occurs in the string. -/
def hasSep : List Char → Bool
  | [] => false
  | [_] => false
  | c :: d :: rest => if c = ':' ∧ d = ':' then true else hasSep (d :: rest)

/-- `FromStr for StrView<ModuleId>` (`types.rs` 1075-1087): split on `"::"`,
demand exactly two parts, parse address then identifier. -/
def moduleIdFromStr (l : List Char) : Option ModuleId :=
  match splitSep l with
  | [a, n] =>
    (parseAccountAddress a).bind fun addr =>
      (identifierNew n).map fun name => ModuleId.mk addr name
  | _ => none

/-- `FromStr for FunctionIdView` (`types.rs` 1053-1067): `rsplitn(2, "::")`,
bail when the separator is missing, else parse module id and identifier. -/
def functionIdFromStr (l : List Char) : Option FunctionId :=
  match rsplitOnce l with
  | some (pre, post) =>
    (moduleIdFromStr pre).bind fun m =>
      (identifierNew post).map fun f => FunctionId.mk m f
  | none => none

/-! ## `ByteCodeOrScriptFunction` (`types.rs` 295-329) -/

/-- `enum ByteCodeOrScriptFunction { ByteCode(ByteCode), ScriptFunction(FunctionId) }`. -/
inductive ByteCodeOrScriptFunction
  | ByteCode (code : ByteCode)
  | ScriptFunction (f : FunctionId)
  deriving DecidableEq

/-- `Display for ByteCodeOrScriptFunction` (`types.rs` 301-310):
bytecode as `0x`-hex, function as `module::function`. -/
def displayByteCodeOrScriptFunction : ByteCodeOrScriptFunction → List Char
  | .ByteCode c => '0' :: 'x' :: hexEncodeChars c
  | .ScriptFunction f => displayFunctionId f

/-- `FromStr for ByteCodeOrScriptFunction` (`types.rs` 312-329): if
`rsplitn(2, "::")` yields two pieces, parse a function reference, otherwise
hex-decode (optional `"0x"` prefix). -/
def byteCodeOrScriptFunctionFromStr (l : List Char) : Option ByteCodeOrScriptFunction :=
  match rsplitOnce l with
  | some (pre, post) =>
    (moduleIdFromStr pre).bind fun m =>
      (identifierNew post).map fun f => ByteCodeOrScriptFunction.ScriptFunction (FunctionId.mk m f)
  | none => (hexDecodeList (strip0x l)).map .ByteCode

/-! ### Separator lemmas -/

/-- Induction principle matching the `c :: d :: rest` → `d :: rest` recursions. -/
theorem consPairInduction {motive : List Char → Prop} (h0 : motive [])
    (h1 : ∀ a, motive [a]) (h2 : ∀ a b rest, motive (b :: rest) → motive (a :: b :: rest)) :
    ∀ l, motive l
  | [] => h0
  | [a] => h1 a
  | a :: b :: rest => h2 a b rest (consPairInduction h0 h1 h2 (b :: rest))

theorem rsplitOnce_eq_none_iff : ∀ l, rsplitOnce l = none ↔ hasSep l = false := by
  apply consPairInduction
  · simp [rsplitOnce, hasSep]
  · intro a; simp [rsplitOnce, hasSep]
  · intro a b rest ih
    rw [rsplitOnce, hasSep]
    rcases hr : rsplitOnce (b :: rest) with _ | ⟨pre, post⟩
    · have hs : hasSep (b :: rest) = false := ih.mp hr
      by_cases hc : a = ':' ∧ b = ':'
      · rw [if_pos hc, if_pos hc]; simp
      · rw [if_neg hc, if_neg hc]; simp [hs]
    · have hs : ¬ hasSep (b :: rest) = false := fun h => by
        rw [ih.mpr h] at hr; exact Option.noConfusion hr
      constructor
      · intro h; exact absurd h (by simp)
      · intro h
        by_cases hc : a = ':' ∧ b = ':'
        · rw [if_pos hc] at h; exact absurd h (by simp)
        · rw [if_neg hc] at h
          exact absurd h hs

theorem hasSep_false_of_noColon {l : List Char} (h : ∀ c ∈ l, c ≠ ':') :
    hasSep l = false := by
  induction l using consPairInduction with
  | h0 => rfl
  | h1 a => rfl
  | h2 a b rest ih =>
    rw [hasSep, if_neg]
    · exact ih fun c hc => h c (List.mem_cons_of_mem a hc)
    · intro ⟨ha, _⟩
      exact h a (List.mem_cons_self a _) ha

theorem hasSep_false_cons_of_noColon {l : List Char} (h : ∀ c ∈ l, c ≠ ':') (a : Char) :
    hasSep (a :: l) = false := by
  cases l with
  | nil => rfl
  | cons b rest =>
    rw [hasSep, if_neg]
    · exact hasSep_false_of_noColon h
    · intro ⟨_, hb⟩
      exact h b (List.mem_cons_self b rest) hb

/-- `rsplitn(2, "::")` cuts at the last separator: appending `"::" ++ post`
with a separator-free `post` always splits off exactly `post`. -/
theorem rsplitOnce_append {post : List Char} (hpost : ∀ c ∈ post, c ≠ ':') :
    ∀ pre, rsplitOnce (pre ++ ':' :: ':' :: post) = some (pre, post) := by
  intro pre
  induction pre with
  | nil =>
    show rsplitOnce (':' :: ':' :: post) = some ([], post)
    rw [rsplitOnce]
    have hnone : rsplitOnce (':' :: post) = none :=
      (rsplitOnce_eq_none_iff _).mpr (hasSep_false_cons_of_noColon hpost ':')
    rw [hnone]
    simp
  | cons p pre' ih =>
    cases hpre : pre' ++ ':' :: ':' :: post with
    | nil => exact absurd hpre (by simp)
    | cons d rest' =>
      show rsplitOnce (p :: pre' ++ ':' :: ':' :: post) = some (p :: pre', post)
      rw [List.cons_append, hpre, rsplitOnce, ← hpre, ih]

theorem splitSep_noColon {l : List Char} (h : ∀ c ∈ l, c ≠ ':') : splitSep l = [l] := by
  induction l using consPairInduction with
  | h0 => rfl
  | h1 a => rfl
  | h2 a b rest ih =>
    rw [splitSep, if_neg]
    · rw [ih fun c hc => h c (List.mem_cons_of_mem a hc)]
      rfl
    · intro ⟨ha, _⟩
      exact h a (List.mem_cons_self a _) ha

/-- `split("::")` of `a ++ "::" ++ b` with separator-free pieces is `[a, b]`. -/
theorem splitSep_append {a b : List Char} (ha : ∀ c ∈ a, c ≠ ':') (hb : ∀ c ∈ b, c ≠ ':') :
    splitSep (a ++ ':' :: ':' :: b) = [a, b] := by
  induction a with
  | nil =>
    show splitSep (':' :: ':' :: b) = [[], b]
    rw [splitSep, if_pos ⟨rfl, rfl⟩, splitSep_noColon hb]
  | cons p a' ih =>
    have hp : p ≠ ':' := ha p (List.mem_cons_self p a')
    have ha' : ∀ c ∈ a', c ≠ ':' := fun c hc => ha c (List.mem_cons_of_mem p hc)
    cases hpre : a' ++ ':' :: ':' :: b with
    | nil => exact absurd hpre (by simp)
    | cons d rest' =>
      show splitSep (p :: a' ++ ':' :: ':' :: b) = [p :: a', b]
      rw [List.cons_append, hpre, splitSep, if_neg, ← hpre, ih ha']
      · rfl
      · intro ⟨hpc, _⟩
        exact hp hpc

/-! ### Identifier and address lemmas -/

theorem colon_not_identChar : isIdentChar ':' = false := by decide

theorem identChar_of_validIdentifier {l : List Char} (h : isValidIdentifier l = true) :
    ∀ c ∈ l, isIdentChar c = true := by
  cases l with
  | nil => intro c hc; simp at hc
  | cons c rest =>
    rw [isValidIdentifier, Bool.and_eq_true] at h
    intro e he
    rcases List.mem_cons.mp he with rfl | he'
    · have h1 := h.1
      rw [Bool.or_eq_true] at h1
      rcases h1 with h1 | h1
      · rw [isIdentChar, h1]
        simp
      · rw [Bool.and_eq_true] at h1
        have he' : e = '_' := of_decide_eq_true h1.1
        subst he'
        decide
    · exact List.all_eq_true.mp h.2 _ he'

theorem noColon_of_validIdentifier {l : List Char} (h : isValidIdentifier l = true) :
    ∀ c ∈ l, c ≠ ':' := by
  intro c hc hceq
  subst hceq
  have := identChar_of_validIdentifier h _ hc
  exact absurd this (by decide)

theorem identifierNew_valid {l r : List Char} (h : identifierNew l = some r) :
    r = l ∧ isValidIdentifier l = true := by
  unfold identifierNew at h
  split at h
  · next hv => exact ⟨(Option.some.injEq _ _ ▸ h).symm, hv⟩
  · exact Option.noConfusion h

theorem identifierNew_of_valid {l : List Char} (h : isValidIdentifier l = true) :
    identifierNew l = some l := by
  unfold identifierNew
  rw [if_pos h]

/-- Parsed digit accumulations are bounded by the base power of the length. -/
theorem parseDigitsAux_lt {digVal : Char → Option Nat} {base : Nat} (_hb : 2 ≤ base)
    (hdig : ∀ c d, digVal c = some d → d < base) :
    ∀ l acc v, parseDigitsAux digVal base acc l = some v → v < (acc + 1) * base ^ l.length := by
  intro l
  induction l with
  | nil =>
    intro acc v h
    rw [parseDigitsAux_nil] at h
    simp only [Option.some.injEq] at h
    subst h
    simp
  | cons c rest ih =>
    intro acc v h
    rcases hdv : digVal c with _ | d
    · rw [parseDigitsAux_cons_none hdv] at h
      exact Option.noConfusion h
    · rw [parseDigitsAux_cons_some hdv] at h
      have hd : d < base := hdig c d hdv
      calc v < (acc * base + d + 1) * base ^ rest.length := ih _ v h
        _ ≤ ((acc + 1) * base) * base ^ rest.length := by
            apply Nat.mul_le_mul_right
            have : acc * base + d + 1 ≤ acc * base + base := by omega
            calc acc * base + d + 1 ≤ acc * base + base := this
              _ = (acc + 1) * base := by ring
        _ = (acc + 1) * base ^ (rest.length + 1) := by ring
        _ = (acc + 1) * base ^ (c :: rest).length := by rw [List.length_cons]

/-- A parsed account address fits in 16 bytes. -/
theorem parseAccountAddress_lt {l : List Char} {a : Nat}
    (h : parseAccountAddress l = some a) : a < 16 ^ 32 := by
  have hdig : ∀ c d, hexDigitVal c = some d → d < 16 := fun c d hc => hexDigitVal_lt hc
  unfold parseAccountAddress at h
  split at h
  · next rest =>
    split at h
    · next hlen =>
      have := parseDigitsAux_lt (by norm_num) hdig rest 0 a h
      calc a < (0 + 1) * 16 ^ rest.length := this
        _ ≤ 16 ^ 32 := by
            simp only [Nat.zero_add, Nat.one_mul]
            exact Nat.pow_le_pow_right (by norm_num) hlen.2
    · exact Option.noConfusion h
  · split at h
    · next hlen =>
      have := parseDigitsAux_lt (by norm_num) hdig l 0 a h
      calc a < (0 + 1) * 16 ^ l.length := this
        _ = 16 ^ 32 := by rw [hlen]; ring
    · exact Option.noConfusion h

theorem noColon_displayAccountAddress (a : Nat) :
    ∀ c ∈ displayAccountAddress a, c ≠ ':' := by
  intro c hc
  rcases List.mem_cons.mp hc with rfl | hc'
  · decide
  rcases List.mem_cons.mp hc' with rfl | hc''
  · decide
  obtain ⟨d, hd⟩ := @toBaseAux_mem 16 (by norm_num) (by norm_num) 40 a c hc''
  rw [hd]
  exact digitChar_ne_colon d

/-- Displaying and re-parsing an address is the identity (for 16-byte values). -/
theorem parseAccountAddress_display {a : Nat} (ha : a < 16 ^ 32) :
    parseAccountAddress (displayAccountAddress a) = some a := by
  have hfuel : a < 16 ^ 39 := lt_of_lt_of_le ha (Nat.pow_le_pow_right (by norm_num) (by norm_num))
  have hne : natToHexChars a ≠ [] := toBaseAux_ne_nil (by norm_num) 39 a
  have hlen : (natToHexChars a).length ≤ 32 :=
    toBaseAux_length (by norm_num) 39 a 32 hfuel ha (by norm_num)
  have hp := @parseDigitsAux_toBaseAux 16 hexDigitVal (by norm_num)
      (fun d hd => hexDigitVal_digitChar ⟨d, hd⟩) 39 a 0 hfuel
  show parseAccountAddress ('0' :: 'x' :: natToHexChars a) = some a
  rw [parseAccountAddress]
  rw [if_pos ⟨List.length_pos.mpr hne, hlen⟩]
  simpa using hp

/-! ### Round-trip lemmas for references and bytecode -/

theorem moduleIdFromStr_eq_two {l a n : List Char} (h : splitSep l = [a, n]) :
    moduleIdFromStr l = ((parseAccountAddress a).bind fun addr =>
      (identifierNew n).map fun name => ModuleId.mk addr name) := by
  unfold moduleIdFromStr
  rw [h]

theorem byteCodeOrScriptFunctionFromStr_eq_sep {l pre post : List Char}
    (h : rsplitOnce l = some (pre, post)) :
    byteCodeOrScriptFunctionFromStr l = ((moduleIdFromStr pre).bind fun m =>
      (identifierNew post).map fun f =>
        ByteCodeOrScriptFunction.ScriptFunction (FunctionId.mk m f)) := by
  unfold byteCodeOrScriptFunctionFromStr
  rw [h]

theorem byteCodeOrScriptFunctionFromStr_eq_noSep {l : List Char}
    (h : rsplitOnce l = none) :
    byteCodeOrScriptFunctionFromStr l = (hexDecodeList (strip0x l)).map .ByteCode := by
  unfold byteCodeOrScriptFunctionFromStr
  rw [h]

/-- The well-formedness a successful parse guarantees for a `FunctionId`. -/
def FunctionId.wellFormed (f : FunctionId) : Prop :=
  isValidIdentifier f.module.name = true ∧ isValidIdentifier f.function = true ∧
    f.module.address < 16 ^ 32

theorem moduleIdFromStr_wellFormed {l : List Char} {m : ModuleId}
    (h : moduleIdFromStr l = some m) :
    isValidIdentifier m.name = true ∧ m.address < 16 ^ 32 := by
  rcases hsplit : splitSep l with _ | ⟨a, _ | ⟨n, _ | ⟨r, t⟩⟩⟩
  · have hnone : moduleIdFromStr l = none := by unfold moduleIdFromStr; rw [hsplit]
    rw [hnone] at h; exact Option.noConfusion h
  · have hnone : moduleIdFromStr l = none := by unfold moduleIdFromStr; rw [hsplit]
    rw [hnone] at h; exact Option.noConfusion h
  · rw [moduleIdFromStr_eq_two hsplit] at h
    rcases ha : parseAccountAddress a with _ | addr
    · rw [ha] at h
      exact Option.noConfusion ((rfl : (none : Option Nat).bind _ = none) ▸ h)
    rw [ha] at h
    replace h : ((identifierNew n).map fun name => ModuleId.mk addr name) = some m := h
    rcases hn : identifierNew n with _ | name
    · rw [hn] at h; exact Option.noConfusion h
    rw [hn] at h
    replace h : some (ModuleId.mk addr name) = some m := h
    obtain ⟨heq, hv⟩ := identifierNew_valid hn
    have hm : ModuleId.mk addr name = m := Option.some.inj h
    subst hm
    refine ⟨?_, parseAccountAddress_lt ha⟩
    show isValidIdentifier name = true
    rw [heq]
    exact hv
  · have hnone : moduleIdFromStr l = none := by unfold moduleIdFromStr; rw [hsplit]
    rw [hnone] at h; exact Option.noConfusion h

theorem byteCodeOrScriptFunctionFromStr_wellFormed {l : List Char} {f : FunctionId}
    (h : byteCodeOrScriptFunctionFromStr l = some (.ScriptFunction f)) :
    f.wellFormed := by
  rcases hr : rsplitOnce l with _ | ⟨pre, post⟩
  · rw [byteCodeOrScriptFunctionFromStr_eq_noSep hr] at h
    rcases hd : hexDecodeList (strip0x l) with _ | bs
    · rw [hd] at h; exact Option.noConfusion h
    · rw [hd] at h
      replace h : some (ByteCodeOrScriptFunction.ByteCode bs) =
        some (ByteCodeOrScriptFunction.ScriptFunction f) := h
      exact ByteCodeOrScriptFunction.noConfusion (Option.some.inj h)
  · rw [byteCodeOrScriptFunctionFromStr_eq_sep hr] at h
    rcases hm : moduleIdFromStr pre with _ | m
    · rw [hm] at h; exact Option.noConfusion h
    rw [hm] at h
    replace h : ((identifierNew post).map fun fn =>
      ByteCodeOrScriptFunction.ScriptFunction (FunctionId.mk m fn)) = some (.ScriptFunction f) := h
    rcases hn : identifierNew post with _ | fn
    · rw [hn] at h; exact Option.noConfusion h
    rw [hn] at h
    replace h : some (ByteCodeOrScriptFunction.ScriptFunction (FunctionId.mk m fn)) =
      some (ByteCodeOrScriptFunction.ScriptFunction f) := h
    have hf : FunctionId.mk m fn = f := by
      have := Option.some.inj h
      injection this
    subst hf
    obtain ⟨heq, hvf⟩ := identifierNew_valid hn
    obtain ⟨hvm, haddr⟩ := moduleIdFromStr_wellFormed hm
    refine ⟨hvm, ?_, haddr⟩
    show isValidIdentifier fn = true
    rw [heq]
    exact hvf

theorem noColon_displayModuleId {m : ModuleId} (hv : isValidIdentifier m.name = true) :
    splitSep (displayModuleId m) = [displayAccountAddress m.address, m.name] :=
  splitSep_append (noColon_displayAccountAddress m.address) (noColon_of_validIdentifier hv)

theorem moduleIdFromStr_display {m : ModuleId} (hv : isValidIdentifier m.name = true)
    (ha : m.address < 16 ^ 32) : moduleIdFromStr (displayModuleId m) = some m := by
  rw [moduleIdFromStr_eq_two (noColon_displayModuleId hv)]
  rw [parseAccountAddress_display ha, identifierNew_of_valid hv]
  rfl

/-- Parsing is a left inverse of display on well-formed function references. -/
theorem byteCodeOrScriptFunctionFromStr_display_scriptFunction {f : FunctionId}
    (hf : f.wellFormed) :
    byteCodeOrScriptFunctionFromStr (displayByteCodeOrScriptFunction (.ScriptFunction f)) =
      some (.ScriptFunction f) := by
  obtain ⟨hvm, hvf, haddr⟩ := hf
  show byteCodeOrScriptFunctionFromStr (displayFunctionId f) = _
  have hr : rsplitOnce (displayFunctionId f) = some (displayModuleId f.module, f.function) := by
    unfold displayFunctionId
    exact rsplitOnce_append (noColon_of_validIdentifier hvf) (displayModuleId f.module)
  rw [byteCodeOrScriptFunctionFromStr_eq_sep hr]
  rw [moduleIdFromStr_display hvm haddr, identifierNew_of_valid hvf]
  rfl

/-- Parsing is a left inverse of display on bytecode values. -/
theorem byteCodeOrScriptFunctionFromStr_display_byteCode (bs : ByteCode) :
    byteCodeOrScriptFunctionFromStr (displayByteCodeOrScriptFunction (.ByteCode bs)) =
      some (.ByteCode bs) := by
  show byteCodeOrScriptFunctionFromStr ('0' :: 'x' :: hexEncodeChars bs) = _
  have hnocolon : ∀ c ∈ '0' :: 'x' :: hexEncodeChars bs, c ≠ ':' := by
    intro c hc
    rcases List.mem_cons.mp hc with rfl | hc'
    · decide
    rcases List.mem_cons.mp hc' with rfl | hc''
    · decide
    obtain ⟨d, hd⟩ := hexEncodeWith_mem (fun n hn => ⟨⟨n, hn⟩, rfl⟩) bs c hc''
    rw [hd]
    exact digitChar_ne_colon d
  have hnone : rsplitOnce ('0' :: 'x' :: hexEncodeChars bs) = none :=
    (rsplitOnce_eq_none_iff _).mpr (hasSep_false_of_noColon hnocolon)
  rw [byteCodeOrScriptFunctionFromStr_eq_noSep hnone]
  rw [show strip0x ('0' :: 'x' :: hexEncodeChars bs) = hexEncodeChars bs from rfl]
  rw [hexDecode_hexEncode]
  rfl

/-- Combined: parsing is a left inverse of display on every parsed value. -/
theorem byteCodeOrScriptFunctionFromStr_display {l : List Char} {v : ByteCodeOrScriptFunction}
    (h : byteCodeOrScriptFunctionFromStr l = some v) :
    byteCodeOrScriptFunctionFromStr (displayByteCodeOrScriptFunction v) = some v := by
  cases v with
  | ByteCode bs => exact byteCodeOrScriptFunctionFromStr_display_byteCode bs
  | ScriptFunction f =>
    exact byteCodeOrScriptFunctionFromStr_display_scriptFunction
      (byteCodeOrScriptFunctionFromStr_wellFormed h)

/-- A parse only returns a function reference when `"::"` occurs in the input. -/
theorem byteCodeOrScriptFunctionFromStr_scriptFunction_hasSep {l : List Char} {f : FunctionId}
    (h : byteCodeOrScriptFunctionFromStr l = some (.ScriptFunction f)) : hasSep l = true := by
  rcases hr : rsplitOnce l with _ | ⟨pre, post⟩
  · rw [byteCodeOrScriptFunctionFromStr_eq_noSep hr] at h
    rcases hd : hexDecodeList (strip0x l) with _ | bs
    · rw [hd] at h; exact Option.noConfusion h
    · rw [hd] at h
      replace h : some (ByteCodeOrScriptFunction.ByteCode bs) =
        some (ByteCodeOrScriptFunction.ScriptFunction f) := h
      exact ByteCodeOrScriptFunction.noConfusion (Option.some.inj h)
  · cases hs : hasSep l
    · rw [(rsplitOnce_eq_none_iff l).mpr hs] at hr
      exact Option.noConfusion hr
    · rfl

/-- A parse only returns raw bytecode when `"::"` does not occur in the input. -/
theorem byteCodeOrScriptFunctionFromStr_byteCode_noSep {l : List Char} {bs : ByteCode}
    (h : byteCodeOrScriptFunctionFromStr l = some (.ByteCode bs)) : hasSep l = false := by
  rcases hr : rsplitOnce l with _ | ⟨pre, post⟩
  · exact (rsplitOnce_eq_none_iff l).mp hr
  · rw [byteCodeOrScriptFunctionFromStr_eq_sep hr] at h
    rcases hm : moduleIdFromStr pre with _ | m
    · rw [hm] at h; exact Option.noConfusion h
    rw [hm] at h
    replace h : ((identifierNew post).map fun fn =>
      ByteCodeOrScriptFunction.ScriptFunction (FunctionId.mk m fn)) = some (.ByteCode bs) := h
    rcases hn : identifierNew post with _ | fn
    · rw [hn] at h; exact Option.noConfusion h
    rw [hn] at h
    replace h : some (ByteCodeOrScriptFunction.ScriptFunction (FunctionId.mk m fn)) =
      some (ByteCodeOrScriptFunction.ByteCode bs) := h
    exact ByteCodeOrScriptFunction.noConfusion (Option.some.inj h)

/-! ## Transaction arguments and their two wire shapes (`types.rs` 176-222)

`ArgumentsView` holds either human-readable typed literals or raw BCS blobs.
`TransactionArgument`, its literal parser `parse_transaction_argument` and the
BCS conversion `convert_txn_args` live in the vm-types crates (not under
`src/`) and are modelled from the spec (§3: "typed human-readable literal
(integer, address, boolean, byte vector)" normalized to "its canonical
serialized-bytes form"). -/

/-- `TransactionArgument` (starcoin-vm-types): the typed literal argument. -/
inductive TransactionArgument
  | U8 (v : Nat)
  | U64 (v : Nat)
  | U128 (v : Nat)
  | Address (a : Nat)
  | U8Vector (bs : ByteCode)
  | Bool (b : Bool)
  deriving DecidableEq

/-- Little-endian byte rendering at a fixed width, as BCS lays out integers. -/
def leBytes : Nat → Nat → ByteCode
  | 0, _ => []
  | w + 1, n => ⟨n % 256, by omega⟩ :: leBytes w (n / 256)

/-- ULEB128 length header used by BCS for vectors (fuel-bounded; 40 groups
cover every length below `128^40`). -/
def ulebAux : Nat → Nat → ByteCode
  | 0, _ => []
  | fuel + 1, n =>
    if h : n < 128 then [⟨n, by omega⟩]
    else ⟨n % 128 + 128, by omega⟩ :: ulebAux fuel (n / 128)

def uleb128 (n : Nat) : ByteCode := ulebAux 40 n

/-- Modelled from the spec: the BCS value serialization performed per element
by `convert_txn_args` (starcoin-vm-types, not under `src/`): fixed-width
little-endian integers, one-byte booleans, 16 raw address bytes, and
length-prefixed byte vectors. -/
def bcsOfTransactionArgument : TransactionArgument → ByteCode
  | .U8 v => leBytes 1 v
  | .U64 v => leBytes 8 v
  | .U128 v => leBytes 16 v
  | .Address a => leBytes 16 a
  | .U8Vector bs => uleb128 bs.length ++ bs
  | .Bool b => [if b then 1 else 0]

/-- `convert_txn_args`: BCS-serialize each argument value. -/
def convertTxnArgs (args : List TransactionArgument) : List ByteCode :=
  args.map bcsOfTransactionArgument

/-- Drop `suf` from the end of `l`, when it is a suffix. -/
def dropSuffixOpt (l suf : List Char) : Option (List Char) :=
  if suf.isSuffixOf l then some (l.take (l.length - suf.length)) else none

/-- Modelled from the spec: `parse_transaction_argument` (starcoin-vm-types
parser, not under `src/`) — a typed human-readable literal: `true`/`false`,
an `x"…"` hex byte vector, a `0x…` address, or a decimal integer with an
optional `u8`/`u64`/`u128` width suffix (default `u64`). -/
def parseTransactionArgument (l : List Char) : Option TransactionArgument :=
  if l = "true".data then some (.Bool true)
  else if l = "false".data then some (.Bool false)
  else
    match l with
    | 'x' :: '"' :: rest =>
      match rest.getLast? with
      | some '"' => (hexDecodeList rest.dropLast).map .U8Vector
      | _ => none
    | '0' :: 'x' :: rest => (parseAccountAddress ('0' :: 'x' :: rest)).map .Address
    | _ =>
      match dropSuffixOpt l "u128".data with
      | some ds => (parseDecNat ds).bind fun n => if n < 2 ^ 128 then some (.U128 n) else none
      | none =>
        match dropSuffixOpt l "u64".data with
        | some ds => (parseDecNat ds).bind fun n => if n < 2 ^ 64 then some (.U64 n) else none
        | none =>
          match dropSuffixOpt l "u8".data with
          | some ds => (parseDecNat ds).bind fun n => if n < 2 ^ 8 then some (.U8 n) else none
          | none => (parseDecNat l).bind fun n => if n < 2 ^ 64 then some (.U64 n) else none

/-- `enum ArgumentsView { HumanReadable(Vec<TransactionArgumentView>),
BCS(Vec<StrView<Vec<u8>>>) }` (`types.rs` 176-181). -/
inductive ArgumentsView
  | HumanReadable (args : List TransactionArgument)
  | BCS (blobs : List ByteCode)
  deriving DecidableEq

/-- `ArgumentsView::to_bcs_bytes` (`types.rs` 183-192). -/
def ArgumentsView.toBcsBytes : ArgumentsView → List ByteCode
  | .HumanReadable vs => convertTxnArgs vs
  | .BCS vs => vs

/-- `Deserialize for TransactionArgumentView` (`types.rs` 1027-1040 with
1125-1132): expect a string, then `parse_transaction_argument`. -/
def jsonToTransactionArgument : Json → Option TransactionArgument
  | .str s => parseTransactionArgument s
  | _ => none

/-- `Deserialize for ArgumentsView` (`types.rs` 194-205): deserialize a
`Vec<TransactionArgumentView>` (strings parsed as typed literals) and always
wrap it in `HumanReadable`. -/
def deserializeArgumentsView : Json → Option ArgumentsView
  | .arr elems =>
    (elems.mapM jsonToTransactionArgument).map ArgumentsView.HumanReadable
  | _ => none

/-- `Serialize for ArgumentsView` (`types.rs` 207-222): the `HumanReadable`
variant is first normalized through `to_bcs_bytes`, so both variants emit an
array of `0x`-hex strings of the BCS bytes. -/
def serializeArgumentsView : ArgumentsView → Json
  | .HumanReadable vs =>
    .arr (((ArgumentsView.HumanReadable vs).toBcsBytes).map fun b =>
      .str (strViewBytesDisplay b))
  | .BCS data => .arr (data.map fun b => .str (strViewBytesDisplay b))

/-! ## Transaction status classification (`types.rs` 700-756)

`TransactionStatus`, `KeptVMStatus` and `DiscardedVMStatus` come from the
vm-types crates; a discarded status is just its numeric status code. -/

/-- `AbortLocation` from the move vm types: a script or a published module. -/
inductive AbortLocation
  | Script
  | Module (m : ModuleId)
  deriving DecidableEq

/-- `DiscardedVMStatus` (vm-types): carries its numeric `u64` status code. -/
structure DiscardedVMStatus where
  code : Nat
  deriving DecidableEq

/-- `KeptVMStatus` (vm-types). -/
inductive KeptVMStatus
  | Executed
  | OutOfGas
  | MoveAbort (location : AbortLocation) (code : Nat)
  | ExecutionFailure (location : AbortLocation) (function : Nat) (code_offset : Nat)
  | MiscellaneousError
  deriving DecidableEq

/-- `TransactionStatus` (vm-types): `Discard` vs `Keep`. -/
inductive TransactionStatus
  | Discard (s : DiscardedVMStatus)
  | Keep (k : KeptVMStatus)
  deriving DecidableEq

/-- `enum TransactionVMStatus` (`types.rs` 700-718). -/
inductive TransactionVMStatus
  | Executed
  | OutOfGas
  | MoveAbort (location : AbortLocation) (abort_code : Nat)
  | ExecutionFailure (location : AbortLocation) (function : Nat) (code_offset : Nat)
  | MiscellaneousError
  | Discard (status_code : Nat)
  deriving DecidableEq

/-- `impl From<KeptVMStatus> for TransactionVMStatus` (`types.rs` 728-749). -/
def TransactionVMStatus.ofKept : KeptVMStatus → TransactionVMStatus
  | .Executed => .Executed
  | .OutOfGas => .OutOfGas
  | .MoveAbort l c => .MoveAbort l c
  | .ExecutionFailure location function code_offset =>
      .ExecutionFailure location function code_offset
  | .MiscellaneousError => .MiscellaneousError

/-- `impl From<DiscardedVMStatus> for TransactionVMStatus` (`types.rs`
750-756): keep only the numeric status code. -/
def TransactionVMStatus.ofDiscarded (s : DiscardedVMStatus) : TransactionVMStatus :=
  .Discard s.code

/-- `impl From<TransactionStatus> for TransactionVMStatus` (`types.rs`
719-726). -/
def TransactionVMStatus.ofTransactionStatus : TransactionStatus → TransactionVMStatus
  | .Discard d => TransactionVMStatus.ofDiscarded d
  | .Keep k => TransactionVMStatus.ofKept k

/-! ## Transaction payloads and `ExecuteCommand::run` (`execute_cmd.rs`)

The payload and transaction types come from starcoin-types (not under
`src/`); their constructors carry exactly the fields the spec's data model
lists.  `ExecuteCommand::run` is embedded as three pure stages, each a
function of the values that the effectful code had fetched at that point:
payload construction (lines 170-201), raw-transaction assembly (lines
203-228), and the post-dry-run gate with submission (lines 248-272). -/

/-- Move type tags, carried opaquely through payloads. -/
inductive TypeTag
  | Bool
  | U8
  | U64
  | U128
  | Address
  | Signer
  | Vector (t : TypeTag)
  | Struct (address : Nat) (module : Identifier) (name : Identifier)

/-- `Module::new(bytecode)` — a compiled module blob. -/
structure Module where
  code : ByteCode

/-- `ScriptFunction::new(module, function, ty_args, args)` with BCS-encoded
argument blobs. -/
structure ScriptFunction where
  module : ModuleId
  function : Identifier
  ty_args : List TypeTag
  args : List ByteCode

/-- `Script::new(code, ty_args, args)`. -/
structure Script where
  code : ByteCode
  ty_args : List TypeTag
  args : List ByteCode

/-- `Package { modules, init_script }`. -/
structure Package where
  modules : List Module
  init_script : Option ScriptFunction

/-- Modelled from the spec: `Package::new` (starcoin-types, not under
`src/`) — packages a non-empty module list with an optional init call. -/
def Package.new (modules : List Module) (init_script : Option ScriptFunction) :
    Option Package :=
  if modules.isEmpty then none else some ⟨modules, init_script⟩

/-- `TransactionPayload` (starcoin-types): exactly one of three variants. -/
inductive TransactionPayload
  | Script (s : Script)
  | Package (p : Package)
  | ScriptFunction (s : ScriptFunction)

/-- The error cases of the payload `match` in `ExecuteCommand::run`
(`execute_cmd.rs` 170-201). -/
inductive BuildPayloadError
  /-- `bail!("should only provide script function or script file, not both")` -/
  | bothScriptAndFunction
  /-- `bail!("this should not happen, bug here!")` -/
  | noTarget
  /-- a failure propagated from `Package::new(..)?` -/
  | packageNew
  deriving DecidableEq

/-- The payload `match` of `ExecuteCommand::run` (`execute_cmd.rs` 170-201):
`bytedata` is the compiled artifact paired with its is-script tag, and
`scriptFunctionId` the `--function` option. -/
def buildPayload (bytedata : Option (ByteCode × Bool)) (scriptFunctionId : Option FunctionId)
    (typeTags : List TypeTag) (args : List TransactionArgument) :
    Except BuildPayloadError TransactionPayload :=
  match bytedata, scriptFunctionId with
  | some (bytecode, false), functionId =>
    let initScriptFunction := functionId.map fun id =>
      ScriptFunction.mk id.module id.function typeTags (convertTxnArgs args)
    match Package.new [Module.mk bytecode] initScriptFunction with
    | some p => .ok (.Package p)
    | none => .error .packageNew
  | some (bytecode, true), none =>
    .ok (.Script (Script.mk bytecode typeTags (convertTxnArgs args)))
  | some (_, true), some _ => .error .bothScriptAndFunction
  | none, some functionId =>
    .ok (.ScriptFunction
      (ScriptFunction.mk functionId.module functionId.function typeTags (convertTxnArgs args)))
  | none, none => .error .noTarget

/-- The only field of `AccountResource` the assembler reads. -/
structure AccountResource where
  sequence_number : Nat

/-- `RawUserTransaction` (starcoin-types), as assembled by
`new_with_default_gas_token`. -/
structure RawUserTransaction where
  sender : Nat
  sequence_number : Nat
  payload : TransactionPayload
  max_gas_amount : Nat
  gas_unit_price : Nat
  gas_token_code : List Char
  expiration_timestamp_secs : Nat
  chain_id : Nat

/-- Modelled from the spec: the default gas token filled in by
`RawUserTransaction::new_with_default_gas_token` (starcoin-types, not under
`src/`). -/
def defaultGasToken : List Char := "0x1::STC::STC".data

inductive AssembleError
  /-- `bail!("address {} not exists on chain", &sender)` -/
  | accountNotFound (sender : Nat)
  deriving DecidableEq

/-- The `raw_txn` block of `ExecuteCommand::run` (`execute_cmd.rs` 203-228):
`accountResource` is the freshly fetched resource for `sender` (`None` when
the address has no on-chain resource), `nowSeconds` the node's clock, and
`expirationTimeout` the `--timeout` option; the expiration is
`timeout + now` in wrapping `u64` arithmetic. -/
def assembleRawTxn (sender : Nat) (accountResource : Option AccountResource)
    (nowSeconds expirationTimeout maxGasAmount gasPrice chainId : Nat)
    (payload : TransactionPayload) : Except AssembleError RawUserTransaction :=
  match accountResource with
  | none => .error (.accountNotFound sender)
  | some resource =>
    .ok
      { sender := sender
        sequence_number := resource.sequence_number
        payload := payload
        max_gas_amount := maxGasAmount
        gas_unit_price := gasPrice
        gas_token_code := defaultGasToken
        expiration_timestamp_secs := (expirationTimeout + nowSeconds) % 2 ^ 64
        chain_id := chainId }

/-- `ExecutionOutputView` (`view.rs`, consumed by `execute_cmd.rs` 262-268). -/
structure ExecutionOutputView where
  txn_hash : Nat
  block_number : Option Nat
  block_id : Option Nat
  deriving DecidableEq

/-- `ExecutionOutputView::new(txn_hash)`. -/
def ExecutionOutputView.new (txnHash : Nat) : ExecutionOutputView :=
  ⟨txnHash, none, none⟩

/-- `TransactionOutputView` (`types.rs` 821-827), the dry-run output shape;
event data and write-set entries are carried as raw bytes. -/
structure TransactionOutputView where
  events : List ByteCode
  gas_used : Nat
  status : TransactionVMStatus
  write_set : List (Nat × Option ByteCode)
  deriving DecidableEq

/-- `ExecuteResultView` (`view.rs`): a run result or a dry-run output. -/
inductive ExecuteResultView
  | Run (v : ExecutionOutputView)
  | DryRun (o : TransactionOutputView)
  deriving DecidableEq

/-- The two `bail!` sites after the dry run (`execute_cmd.rs` 248-256). -/
inductive ExecuteError
  /-- `bail!("TransactionStatus is discard: {:?}", status_code)` -/
  | discard (status_code : Nat)
  /-- `bail!("pre-run failed, status: {:?}", s)` -/
  | preRunFailed (s : TransactionVMStatus)
  deriving DecidableEq

/-- Outcome of the tail of `ExecuteCommand::run`: whether
`client.submit_transaction` was reached, and the returned value or error. -/
structure SubmitPhaseResult where
  submitted : Bool
  result : Except ExecuteError ExecuteResultView

/-- The tail of `ExecuteCommand::run` after the dry run (`execute_cmd.rs`
248-272): match on the simulated status — `Discard` and every non-`Executed`
kept status bail before any submission; on `Executed`, submit unless
`--dry-run`, then optionally wait for inclusion (`watchResult` is the block
number and hash a blocking watch would return). -/
def afterDryRun (dryRun blocking : Bool) (txnHash : Nat) (watchResult : Nat × Nat)
    (output : TransactionOutputView) : SubmitPhaseResult :=
  match output.status with
  | .Discard status_code => ⟨false, .error (.discard status_code)⟩
  | .Executed =>
    if !dryRun then
      let outputView := ExecutionOutputView.new txnHash
      let outputView :=
        if blocking then
          { outputView with block_number := some watchResult.1, block_id := some watchResult.2 }
        else outputView
      ⟨true, .ok (.Run outputView)⟩
    else ⟨false, .ok (.DryRun output)⟩
  | s => ⟨false, .error (.preRunFailed s)⟩

/-- `strip_prefix("0x")` leaves a string alone when it cannot start with the
prefix. -/
theorem strip0x_eq_self {l : List Char} (h : ∀ c ∈ l, c ≠ 'x') : strip0x l = l := by
  cases l with
  | nil => rfl
  | cons a t =>
    cases t with
    | nil => rfl
    | cons b t' =>
      rw [strip0x, if_neg]
      intro ⟨_, hb⟩
      exact h b (by simp) hb

theorem strip0x_prefixed (l : List Char) : strip0x ('0' :: 'x' :: l) = l := by
  rw [strip0x, if_pos ⟨rfl, rfl⟩]

/-! # The claims -/

/-- C1: in `ExecuteCommand::run` the transaction is submitted only when the
dry-run status is `Executed`; a `Discard` status bails out carrying the raw
discard status code, and every other non-`Executed` status bails out, in all
cases before any submission. -/
theorem c1_dry_run_gate :
    ∀ (dryRun blocking : Bool) (txnHash : Nat) (watchResult : Nat × Nat)
      (output : TransactionOutputView),
      ((afterDryRun dryRun blocking txnHash watchResult output).submitted = true →
        output.status = .Executed) ∧
      (∀ code, output.status = .Discard code →
        afterDryRun dryRun blocking txnHash watchResult output =
          ⟨false, .error (.discard code)⟩) ∧
      (output.status ≠ .Executed →
        (afterDryRun dryRun blocking txnHash watchResult output).submitted = false ∧
        ∃ e, (afterDryRun dryRun blocking txnHash watchResult output).result = .error e) := by
  intro dryRun blocking txnHash watchResult output
  rcases hst : output.status with _ | _ | ⟨l, c⟩ | ⟨l, fn, off⟩ | _ | code
  -- Executed
  · exact ⟨fun _ => rfl, fun code hc => TransactionVMStatus.noConfusion hc,
      fun hne => absurd rfl hne⟩
  -- OutOfGas
  · have heq : afterDryRun dryRun blocking txnHash watchResult output =
        ⟨false, .error (.preRunFailed .OutOfGas)⟩ := by
      unfold afterDryRun
      rw [hst]
    refine ⟨?_, fun code hc => TransactionVMStatus.noConfusion hc, fun _ => ?_⟩
    · rw [heq]
      intro hfalse
      exact Bool.noConfusion hfalse
    · rw [heq]
      exact ⟨rfl, ⟨_, rfl⟩⟩
  -- MoveAbort
  · have heq : afterDryRun dryRun blocking txnHash watchResult output =
        ⟨false, .error (.preRunFailed (.MoveAbort l c))⟩ := by
      unfold afterDryRun
      rw [hst]
    refine ⟨?_, fun code hc => TransactionVMStatus.noConfusion hc, fun _ => ?_⟩
    · rw [heq]
      intro hfalse
      exact Bool.noConfusion hfalse
    · rw [heq]
      exact ⟨rfl, ⟨_, rfl⟩⟩
  -- ExecutionFailure
  · have heq : afterDryRun dryRun blocking txnHash watchResult output =
        ⟨false, .error (.preRunFailed (.ExecutionFailure l fn off))⟩ := by
      unfold afterDryRun
      rw [hst]
    refine ⟨?_, fun code hc => TransactionVMStatus.noConfusion hc, fun _ => ?_⟩
    · rw [heq]
      intro hfalse
      exact Bool.noConfusion hfalse
    · rw [heq]
      exact ⟨rfl, ⟨_, rfl⟩⟩
  -- MiscellaneousError
  · have heq : afterDryRun dryRun blocking txnHash watchResult output =
        ⟨false, .error (.preRunFailed .MiscellaneousError)⟩ := by
      unfold afterDryRun
      rw [hst]
    refine ⟨?_, fun code hc => TransactionVMStatus.noConfusion hc, fun _ => ?_⟩
    · rw [heq]
      intro hfalse
      exact Bool.noConfusion hfalse
    · rw [heq]
      exact ⟨rfl, ⟨_, rfl⟩⟩
  -- Discard
  · have heq : afterDryRun dryRun blocking txnHash watchResult output =
        ⟨false, .error (.discard code)⟩ := by
      unfold afterDryRun
      rw [hst]
    refine ⟨?_, fun code' hc => ?_, fun _ => ?_⟩
    · rw [heq]
      intro hfalse
      exact Bool.noConfusion hfalse
    · have hcc : code = code' := by injection hc
      subst hcc
      exact heq
    · rw [heq]
      exact ⟨rfl, ⟨_, rfl⟩⟩

/-- C1 witness: a concrete discarded dry run (status code 4) yields the
discard error without submission. -/
theorem c1_dry_run_gate_witness :
    afterDryRun false false 0 (0, 0) ⟨[], 0, .Discard 4, []⟩ =
      ⟨false, .error (.discard 4)⟩ :=
  (c1_dry_run_gate false false 0 (0, 0) ⟨[], 0, .Discard 4, []⟩).2.1 4 rfl

/-- C2: `ByteCodeOrScriptFunction::from_str` yields a function reference only
on inputs containing `"::"` and raw bytecode only on inputs without it;
`"0x1234ab"` decodes to bytecode, `"0x1::M::f"` to a function reference, and
no input decodes to both variants. -/
theorem c2_discriminator :
    (∀ (s : List Char) (f : FunctionId),
      byteCodeOrScriptFunctionFromStr s = some (.ScriptFunction f) → hasSep s = true) ∧
    (∀ (s : List Char) (bs : ByteCode),
      byteCodeOrScriptFunctionFromStr s = some (.ByteCode bs) → hasSep s = false) ∧
    byteCodeOrScriptFunctionFromStr "0x1234ab".data =
      some (.ByteCode [(0x12 : Byte), (0x34 : Byte), (0xab : Byte)]) ∧
    byteCodeOrScriptFunctionFromStr "0x1::M::f".data =
      some (.ScriptFunction ⟨⟨1, "M".data⟩, "f".data⟩) ∧
    (∀ (s : List Char) (bs : ByteCode) (f : FunctionId),
      ¬(byteCodeOrScriptFunctionFromStr s = some (.ByteCode bs) ∧
        byteCodeOrScriptFunctionFromStr s = some (.ScriptFunction f))) := by
  refine ⟨fun s f h => byteCodeOrScriptFunctionFromStr_scriptFunction_hasSep h,
    fun s bs h => byteCodeOrScriptFunctionFromStr_byteCode_noSep h,
    by decide, by decide, fun s bs f ⟨h1, h2⟩ => ?_⟩
  rw [h1] at h2
  exact ByteCodeOrScriptFunction.noConfusion (Option.some.inj h2)

/-- C2 witness: the discriminator facts instantiated at the two concrete
example inputs. -/
theorem c2_discriminator_witness :
    hasSep "0x1::M::f".data = true ∧ hasSep "0x1234ab".data = false :=
  ⟨c2_discriminator.1 _ _ c2_discriminator.2.2.2.1,
   c2_discriminator.2.1 _ _ c2_discriminator.2.2.1⟩

/-- C3: the byte-buffer codec round-trips (`from_str ∘ Display = id`),
encoding is `"0x"` plus lowercase hex, and decoding fails exactly on
odd-length or non-hex-character input (after the optional prefix). -/
theorem c3_byte_buffer_roundtrip :
    (∀ bs : ByteCode, strViewBytesFromStr (strViewBytesDisplay bs) = some bs) ∧
    (∀ bs : ByteCode, strViewBytesDisplay bs = '0' :: 'x' :: hexEncodeChars bs ∧
      ∀ c ∈ hexEncodeChars bs, c ∈ "0123456789abcdef".data) ∧
    (∀ l : List Char, strViewBytesFromStr l = none ↔
      ((strip0x l).length % 2 = 1 ∨ ∃ c ∈ strip0x l, hexDigitVal c = none)) := by
  refine ⟨fun bs => ?_, fun bs => ⟨rfl, fun c hc => ?_⟩, fun l => ?_⟩
  · show hexDecodeList (strip0x ('0' :: 'x' :: hexEncodeChars bs)) = some bs
    rw [strip0x_prefixed, hexDecode_hexEncode]
  · obtain ⟨d, hd⟩ := hexEncodeWith_mem (fun n hn => ⟨⟨n, hn⟩, rfl⟩) bs c hc
    rw [hd]
    exact digitChar_mem_lowerAlphabet d
  · exact hexDecodeList_eq_none_iff (strip0x l)

/-- C3 witness: the byte-buffer round trip at the concrete buffer `[0xab]`,
whose encoding character `'a'` lies in the lowercase alphabet. -/
theorem c3_byte_buffer_roundtrip_witness :
    strViewBytesFromStr (strViewBytesDisplay [(0xab : Byte)]) = some [(0xab : Byte)] ∧
    'a' ∈ "0123456789abcdef".data :=
  ⟨c3_byte_buffer_roundtrip.1 [(0xab : Byte)],
   (c3_byte_buffer_roundtrip.2.1 [(0xab : Byte)]).2 'a' (by decide)⟩

/-- C5: the `TransactionStatus → TransactionVMStatus` classification is the
exhaustive pure mapping of the source `From` impls: `Discard` keeps only the
numeric code, each kept status maps to its own variant preserving `MoveAbort`
location and abort code and all three `ExecutionFailure` fields. -/
theorem c5_status_classification :
    (∀ d : DiscardedVMStatus,
      TransactionVMStatus.ofTransactionStatus (.Discard d) = .Discard d.code) ∧
    TransactionVMStatus.ofTransactionStatus (.Keep .Executed) = .Executed ∧
    TransactionVMStatus.ofTransactionStatus (.Keep .OutOfGas) = .OutOfGas ∧
    (∀ l c, TransactionVMStatus.ofTransactionStatus (.Keep (.MoveAbort l c)) =
      .MoveAbort l c) ∧
    (∀ l fn off,
      TransactionVMStatus.ofTransactionStatus (.Keep (.ExecutionFailure l fn off)) =
        .ExecutionFailure l fn off) ∧
    TransactionVMStatus.ofTransactionStatus (.Keep .MiscellaneousError) =
      .MiscellaneousError :=
  ⟨fun _ => rfl, rfl, rfl, fun _ _ => rfl, fun _ _ _ => rfl, rfl⟩

/-- C6 counterexample: module bytecode together with a function reference
does *not* fail — it builds a `Package` payload whose init call is the
function, refuting "both present always yields a ConfigError". -/
theorem c6_counterexample :
    buildPayload (some ([(0 : Byte)], false)) (some ⟨⟨1, "M".data⟩, "f".data⟩) [] [] =
      .ok (.Package ⟨[⟨[(0 : Byte)]⟩], some ⟨⟨1, "M".data⟩, "f".data, [], []⟩⟩) := rfl

/-- C6 (amended): a *script* artifact together with a function reference is
rejected, and so is supplying neither; module bytecode plus a function
reference instead builds a `Package` with that init call. -/
theorem c6_payload_target_validation :
    (∀ (code : ByteCode) (f : FunctionId) (ty : List TypeTag)
      (args : List TransactionArgument),
      buildPayload (some (code, true)) (some f) ty args = .error .bothScriptAndFunction) ∧
    (∀ (ty : List TypeTag) (args : List TransactionArgument),
      buildPayload none none ty args = .error .noTarget) ∧
    (∀ (code : ByteCode) (f : FunctionId) (ty : List TypeTag)
      (args : List TransactionArgument),
      buildPayload (some (code, false)) (some f) ty args =
        .ok (.Package ⟨[⟨code⟩], some ⟨f.module, f.function, ty, convertTxnArgs args⟩⟩)) :=
  ⟨fun _ _ _ _ => rfl, fun _ _ => rfl, fun _ _ _ _ => rfl⟩

/-- C7: the assembled `RawUserTransaction` takes the sequence number from the
fetched account resource (failing when the resource is absent) and sets
`expiration_timestamp_secs = timeout + chain_now`; sequence number 5 with
timeout 3000 at chain time 1000 gives sequence 5 and expiration 4000. -/
theorem c7_assemble_raw_txn :
    (∀ sender now timeout maxGas gasPrice chainId payload,
      assembleRawTxn sender none now timeout maxGas gasPrice chainId payload =
        .error (.accountNotFound sender)) ∧
    (∀ sender (resource : AccountResource) now timeout maxGas gasPrice chainId payload,
      assembleRawTxn sender (some resource) now timeout maxGas gasPrice chainId payload =
        .ok ⟨sender, resource.sequence_number, payload, maxGas, gasPrice, defaultGasToken,
          (timeout + now) % 2 ^ 64, chainId⟩) ∧
    (∀ sender chainId payload,
      assembleRawTxn sender (some ⟨5⟩) 1000 3000 1000000 1 chainId payload =
        .ok ⟨sender, 5, payload, 1000000, 1, defaultGasToken, 4000, chainId⟩) :=
  ⟨fun _ _ _ _ _ _ _ => rfl, fun _ _ _ _ _ _ _ _ => rfl, fun _ _ _ => rfl⟩

/-- C8: arguments are direction-asymmetric — deserialization always produces
the `HumanReadable` variant, while serialization of any `ArgumentsView`
always emits the canonical BCS-bytes hex form. -/
theorem c8_arguments_direction_asymmetry :
    (∀ (j : Json) (v : ArgumentsView),
      deserializeArgumentsView j = some v → ∃ args, v = .HumanReadable args) ∧
    (∀ vs : List TransactionArgument,
      serializeArgumentsView (.HumanReadable vs) =
        .arr ((convertTxnArgs vs).map fun b => .str (strViewBytesDisplay b))) ∧
    (∀ v : ArgumentsView,
      serializeArgumentsView v = serializeArgumentsView (.BCS v.toBcsBytes)) := by
  refine ⟨fun j v h => ?_, fun vs => rfl, fun v => ?_⟩
  · cases j with
    | str s => exact Option.noConfusion h
    | num n => exact Option.noConfusion h
    | arr elems =>
      replace h : (elems.mapM jsonToTransactionArgument).map ArgumentsView.HumanReadable =
        some v := h
      rcases hm : elems.mapM jsonToTransactionArgument with _ | args
      · rw [hm] at h
        exact Option.noConfusion h
      · rw [hm] at h
        exact ⟨args, (Option.some.inj h).symm⟩
  · cases v with
    | HumanReadable vs => rfl
    | BCS data => rfl

/-- C8 witness: a concrete literal list deserializes into the
`HumanReadable` variant. -/
theorem c8_arguments_direction_asymmetry_witness :
    ∃ args, ArgumentsView.HumanReadable [TransactionArgument.Bool true] =
      ArgumentsView.HumanReadable args :=
  c8_arguments_direction_asymmetry.1 (Json.arr [Json.str "true".data])
    (ArgumentsView.HumanReadable [TransactionArgument.Bool true]) (by decide)

/-- C9 counterexample: `"ab"` parses successfully to the bytecode `[0xab]`
but re-displays as `"0xab"`, not the original string — display is not the
exact inverse of parse. -/
theorem c9_counterexample :
    byteCodeOrScriptFunctionFromStr "ab".data = some (.ByteCode [(0xab : Byte)]) ∧
    Option.map displayByteCodeOrScriptFunction (byteCodeOrScriptFunctionFromStr "ab".data) =
      some "0xab".data ∧
    "0xab".data ≠ "ab".data := ⟨by decide, by decide, by decide⟩

/-- C9 (amended): for every successfully parsed value, re-encoding yields the
canonical string, which parses back to the same value (parse is a left
inverse of display on parsed values); the canonical example
`"0x1::Account::create_account"` re-encodes identically. -/
theorem c9_display_parse_inverse :
    (∀ (s : List Char) (v : ByteCodeOrScriptFunction),
      byteCodeOrScriptFunctionFromStr s = some v →
        byteCodeOrScriptFunctionFromStr (displayByteCodeOrScriptFunction v) = some v) ∧
    Option.map displayByteCodeOrScriptFunction
        (byteCodeOrScriptFunctionFromStr "0x1::Account::create_account".data) =
      some "0x1::Account::create_account".data := by
  refine ⟨fun s v h => byteCodeOrScriptFunctionFromStr_display h, ?_⟩
  decide

/-- C9 witness: the left-inverse law applied at the concrete parse of
`"ab"`. -/
theorem c9_display_parse_inverse_witness :
    byteCodeOrScriptFunctionFromStr
        (displayByteCodeOrScriptFunction (.ByteCode [(0xab : Byte)])) =
      some (.ByteCode [(0xab : Byte)]) :=
  c9_display_parse_inverse.1 "ab".data _ (by decide)

/-- C10: hex byte-buffer decoding accepts the `"0x"` prefix optionally and
both letter cases, all decoding to the same bytes, and re-encoding always
yields the canonical `"0x"`-prefixed lowercase form. -/
theorem c10_hex_decode_lenient :
    ∀ bs : ByteCode,
      strViewBytesFromStr (hexEncodeChars bs) = some bs ∧
      strViewBytesFromStr ('0' :: 'x' :: hexEncodeChars bs) = some bs ∧
      strViewBytesFromStr (hexEncodeWith upperDigitChar bs) = some bs ∧
      strViewBytesFromStr ('0' :: 'x' :: hexEncodeWith upperDigitChar bs) = some bs ∧
      strViewBytesDisplay bs = '0' :: 'x' :: hexEncodeChars bs := by
  intro bs
  have hlowx : ∀ c ∈ hexEncodeChars bs, c ≠ 'x' := by
    intro c hc
    obtain ⟨d, hd⟩ := hexEncodeWith_mem (fun n hn => ⟨⟨n, hn⟩, rfl⟩) bs c hc
    rw [hd]
    exact digitChar_ne_x d
  have hupx : ∀ c ∈ hexEncodeWith upperDigitChar bs, c ≠ 'x' := by
    intro c hc
    obtain ⟨d, hd⟩ := hexEncodeWith_mem (fun n hn => ⟨⟨n, hn⟩, rfl⟩) bs c hc
    rw [hd]
    exact upperDigitChar_ne_x d
  refine ⟨?_, ?_, ?_, ?_, rfl⟩
  · show hexDecodeList (strip0x (hexEncodeChars bs)) = some bs
    rw [strip0x_eq_self hlowx, hexDecode_hexEncode]
  · show hexDecodeList (strip0x ('0' :: 'x' :: hexEncodeChars bs)) = some bs
    rw [strip0x_prefixed, hexDecode_hexEncode]
  · show hexDecodeList (strip0x (hexEncodeWith upperDigitChar bs)) = some bs
    rw [strip0x_eq_self hupx, hexDecode_hexEncodeWith hexDigitVal_upperDigitChar]
  · show hexDecodeList (strip0x ('0' :: 'x' :: hexEncodeWith upperDigitChar bs)) = some bs
    rw [strip0x_prefixed, hexDecode_hexEncodeWith hexDigitVal_upperDigitChar]

theorem u64FromStr_natToDecChars {n : Nat} (h : n < 2 ^ 64) :
    u64FromStr (natToDecChars n) = some n := by
  unfold u64FromStr
  rw [parseUnsignedDec_natToDecChars (lt_of_lt_of_le h (by norm_num))]
  show (if n < 2 ^ 64 then some n else none) = some n
  rw [if_pos h]

theorem u128FromStr_natToDecChars {n : Nat} (h : n < 2 ^ 128) :
    u128FromStr (natToDecChars n) = some n := by
  unfold u128FromStr
  rw [parseUnsignedDec_natToDecChars (lt_of_lt_of_le h (by norm_num))]
  show (if n < 2 ^ 128 then some n else none) = some n
  rw [if_pos h]

theorem i64FromStr_intToDecChars {x : Int} (h1 : -(2 ^ 63) ≤ x) (h2 : x < 2 ^ 63) :
    i64FromStr (intToDecChars x) = some x := by
  have habs : x.natAbs < 10 ^ 39 := by
    have e1 : (2 : Int) ^ 63 = 9223372036854775808 := by norm_num
    have e2 : (10 : Nat) ^ 39 = 1000000000000000000000000000000000000000 := by norm_num
    rw [e1] at h1 h2
    rw [e2]
    omega
  unfold i64FromStr
  rw [parseSignedDec_intToDecChars habs]
  show (if -(2 ^ 63) ≤ x ∧ x < 2 ^ 63 then some x else none) = some x
  rw [if_pos ⟨h1, h2⟩]

theorem i128FromStr_intToDecChars {x : Int} (h1 : -(2 ^ 127) ≤ x) (h2 : x < 2 ^ 127) :
    i128FromStr (intToDecChars x) = some x := by
  have habs : x.natAbs < 10 ^ 39 := by
    have e1 : (2 : Int) ^ 127 = 170141183460469231731687303715884105728 := by norm_num
    have e2 : (10 : Nat) ^ 39 = 1000000000000000000000000000000000000000 := by norm_num
    rw [e1] at h1 h2
    rw [e2]
    omega
  unfold i128FromStr
  rw [parseSignedDec_intToDecChars habs]
  show (if -(2 ^ 127) ≤ x ∧ x < 2 ^ 127 then some x else none) = some x
  rw [if_pos ⟨h1, h2⟩]

/-- C4: every 64/128-bit signed and unsigned `StrView` integer serializes as
a base-10 decimal JSON *string* (never a native numeric literal) and
deserializing that string returns exactly the original value. -/
theorem c4_integer_decimal_roundtrip :
    (∀ n : Nat, n < 2 ^ 64 →
      deserStrViewU64 (serStrViewU64 n) = some n ∧
      serStrViewU64 n = .str (natToDecChars n)) ∧
    (∀ n : Nat, n < 2 ^ 128 →
      deserStrViewU128 (serStrViewU128 n) = some n ∧
      serStrViewU128 n = .str (natToDecChars n)) ∧
    (∀ x : Int, -(2 ^ 63) ≤ x → x < 2 ^ 63 →
      deserStrViewI64 (serStrViewI64 x) = some x ∧
      serStrViewI64 x = .str (intToDecChars x)) ∧
    (∀ x : Int, -(2 ^ 127) ≤ x → x < 2 ^ 127 →
      deserStrViewI128 (serStrViewI128 x) = some x ∧
      serStrViewI128 x = .str (intToDecChars x)) ∧
    (∀ (n : Nat) (m : Int), serStrViewU64 n ≠ .num m ∧ serStrViewU128 n ≠ .num m) ∧
    (∀ (x m : Int), serStrViewI64 x ≠ .num m ∧ serStrViewI128 x ≠ .num m) := by
  refine ⟨fun n h => ⟨u64FromStr_natToDecChars h, rfl⟩,
    fun n h => ⟨u128FromStr_natToDecChars h, rfl⟩,
    fun x h1 h2 => ⟨i64FromStr_intToDecChars h1 h2, rfl⟩,
    fun x h1 h2 => ⟨i128FromStr_intToDecChars h1 h2, rfl⟩,
    fun n m => ⟨fun h => Json.noConfusion h, fun h => Json.noConfusion h⟩,
    fun x m => ⟨fun h => Json.noConfusion h, fun h => Json.noConfusion h⟩⟩

/-- C4 witness: the round trip at `0`, `u64::MAX`, `u128::MAX`, `i64::MIN`
and `-1`. -/
theorem c4_integer_decimal_roundtrip_witness :
    deserStrViewU64 (serStrViewU64 0) = some 0 ∧
    deserStrViewU64 (serStrViewU64 18446744073709551615) = some 18446744073709551615 ∧
    deserStrViewU128 (serStrViewU128 340282366920938463463374607431768211455) =
      some 340282366920938463463374607431768211455 ∧
    deserStrViewI64 (serStrViewI64 (-9223372036854775808)) =
      some (-9223372036854775808) ∧
    deserStrViewI128 (serStrViewI128 (-1)) = some (-1) :=
  ⟨(c4_integer_decimal_roundtrip.1 0 (by norm_num)).1,
   (c4_integer_decimal_roundtrip.1 18446744073709551615 (by norm_num)).1,
   (c4_integer_decimal_roundtrip.2.1 340282366920938463463374607431768211455
     (by norm_num)).1,
   (c4_integer_decimal_roundtrip.2.2.1 (-9223372036854775808) (by norm_num)
     (by norm_num)).1,
   (c4_integer_decimal_roundtrip.2.2.2.1 (-1) (by norm_num) (by norm_num)).1⟩

end StarcoinSpec
